import Mathlib

/-!
Verification of the monorepo build orchestrator
(`.dagger/src/monorepo_dagger/main.py`): a shallow embedding of the
dependency-closure resolution (`get_project_sources_map` /
`find_deps_for_package`), the source-copy step (`copy_source_code`), the
image-reference builder (`build_container_destination`), the conditional
registry-auth step (`attach_registry_auth`), the quality-gate aggregate
(`verify`), and the `fastapi_publish` entry point with Python's
required-argument calling convention.

Container/layer values are embedded as the ordered list of engine
operations issued on them (the engine itself is an external collaborator;
its copy-on-write API means each call returns a new value, which the list
append models).  Python's unbounded recursion is embedded with a fuel
parameter: `none` / `.fuelOut` marks a computation that did not return
within the given fuel, and divergence is proved by showing the fuel runs
out for every bound.
-/

/-- One entry of the lockfile's `package` array: the `name`, the optional
`dependencies` array (an absent key is embedded as `[]`, matching
`package.get("dependencies", [])`), and `source.editable` when present.
A dependency entry is kept only when it is a table carrying a `name`
(`isinstance(dep, dict) and dep.get("name")`), so a dependency reference
is embedded as `some name` for such an entry and `none` for anything
else.  `sourceEditable = none` embeds a record whose `source` table has no
`editable` key; reading it raises a Python `KeyError`. -/
structure Package where
  name : String
  dependencies : List (Option String)
  sourceEditable : Option String
  deriving DecidableEq

/-- A parsed lockfile: `manifest.members` (the workspace member names) and
the `package` array.  Parsing the on-disk bytes is done by the external
`tomli` parser; all claims below quantify over already-parsed documents. -/
structure Lockfile where
  members : List String
  packages : List Package
  deriving DecidableEq

/-- Adding a name to the Python set `local_projects`
(`local_projects.add(dep["name"])`): membership is what matters for a set;
the embedding keeps first-insertion order and never duplicates. -/
def insertName (s : String) (l : List String) : List String :=
  if s ∈ l then l else l ++ [s]

/-- The inner `for dep in dependencies` loop of `find_deps_for_package`: a
named dependency that is a workspace member is added to the visited set and
then recursed into via `rec` (the recursive call at one less fuel) —
without ever checking whether the name was already visited.  `none`
propagates fuel exhaustion. -/
def depLoop (members : List String) (rec : String → List String → Option (List String)) :
    List (Option String) → List String → Option (List String)
  | [], acc => some acc
  | d :: rest, acc =>
    match d with
    | none => depLoop members rec rest acc
    | some dname =>
      if dname ∈ members then
        match rec dname (insertName dname acc) with
        | none => none
        | some acc3 => depLoop members rec rest acc3
      else
        depLoop members rec rest acc

/-- The outer `for package in uv_lock_dict["package"]` loop of
`find_deps_for_package`: every record whose `name` equals the argument has
its dependency list processed (there is no `break`, so several records with
the same name would each be processed). -/
def pkgLoop (members : List String) (rec : String → List String → Option (List String)) :
    List Package → String → List String → Option (List String)
  | [], _, acc => some acc
  | p :: rest, pkgName, acc =>
    if p.name = pkgName then
      match depLoop members rec p.dependencies acc with
      | none => none
      | some acc2 => pkgLoop members rec rest pkgName acc2
    else
      pkgLoop members rec rest pkgName acc

/-- `find_deps_for_package(package_name)`: one invocation scans every
package record; each recursive invocation consumes one unit of fuel.
`none` reports that the fuel was exhausted before the Python recursion
returned.  The threaded accumulator embeds the mutable set
`local_projects` captured by the closure. -/
def find_deps_for_package (members : List String) (pkgs : List Package) :
    Nat → String → List String → Option (List String)
  | 0, _, _ => none
  | Nat.succ n, pkgName, acc =>
    pkgLoop members (fun s a => find_deps_for_package members pkgs n s a) pkgs pkgName acc

/-- Results of running a piece of the Python module: a value, a raised
Python exception (`TypeError`, `KeyError`, `AttributeError`, `IndexError`),
or `fuelOut`, the embedding's marker that a recursion did not return within
the given fuel. -/
inductive PyResult (α : Type) where
  | ok : α → PyResult α
  | typeError : PyResult α
  | keyError : PyResult α
  | attributeError : PyResult α
  | indexError : PyResult α
  | fuelOut : PyResult α
  deriving DecidableEq

def PyResult.bind {α β : Type} : PyResult α → (α → PyResult β) → PyResult β
  | .ok a, f => f a
  | .typeError, _ => .typeError
  | .keyError, _ => .keyError
  | .attributeError, _ => .attributeError
  | .indexError, _ => .indexError
  | .fuelOut, _ => .fuelOut

instance : Monad PyResult where
  pure := PyResult.ok
  bind := PyResult.bind

/-- Python `dict` assignment `d[k] = v`: overwrites the value in place
(keeping the key's first-insertion position) when the key exists, appends
otherwise. -/
def dictInsert (k v : String) (d : List (String × String)) : List (String × String) :=
  if d.any (fun kv => kv.1 == k) then
    d.map (fun kv => if kv.1 = k then (k, v) else kv)
  else
    d ++ [(k, v)]

/-- Python `d[k]` lookup on the embedded dict. -/
def dictGet (k : String) (d : List (String × String)) : Option String :=
  (d.find? (fun kv => kv.1 == k)).map (fun kv => kv.2)

/-- The map-building loop of `get_project_sources_map`: every package
record whose name is in the visited set contributes
`package["source"]["editable"]`; a visited record without that key raises
`KeyError`. -/
def buildSourcesMap (localProjects : List String) :
    List Package → List (String × String) → PyResult (List (String × String))
  | [], acc => .ok acc
  | p :: rest, acc =>
    if p.name ∈ localProjects then
      match p.sourceEditable with
      | none => .keyError
      | some path => buildSourcesMap localProjects rest (dictInsert p.name path acc)
    else
      buildSourcesMap localProjects rest acc

/-- `get_project_sources_map(uv_lock, project)` over an already-parsed
lockfile: seed the visited set with the target, run
`find_deps_for_package(project)`, then collect the editable source path of
every visited package record.  No membership check on the target is
performed anywhere. -/
def get_project_sources_map (fuel : Nat) (uv_lock : Lockfile) (project : String) :
    PyResult (List (String × String)) :=
  match find_deps_for_package uv_lock.members uv_lock.packages fuel project [project] with
  | none => .fuelOut
  | some local_projects => buildSourcesMap local_projects uv_lock.packages []

/-- A dagger secret handle; only ever passed around by the embedded code. -/
structure Secret where
  token : String
  deriving DecidableEq

/-- One engine operation issued on a container (or on the directory build
context feeding `docker_build`).  The engine is external; a container value
is the ordered list of operations that produced it. -/
inductive ContainerOp where
  | withFile (path : String) (sourceFile : String)
  | withNewFile (path : String) (contents : String)
  | dockerBuild (target : String) (dockerfile : String) (buildArgs : List (String × String))
  | withDirectory (path : String) (sourcePath : String)
  | withExec (args : List String)
  | withWorkdir (path : String)
  | withEntrypoint (args : List String)
  | withEnvVariable (key : String) (value : String)
  | withExposedPort (port : Nat)
  | withRegistryAuth (address : String) (username : Option String) (secret : Option Secret)
  deriving DecidableEq

structure Container where
  ops : List ContainerOp
  deriving DecidableEq

def Container.with_exec (c : Container) (args : List String) : Container :=
  ⟨c.ops ++ [ContainerOp.withExec args]⟩

def Container.with_workdir (c : Container) (path : String) : Container :=
  ⟨c.ops ++ [ContainerOp.withWorkdir path]⟩

def Container.with_entrypoint (c : Container) (args : List String) : Container :=
  ⟨c.ops ++ [ContainerOp.withEntrypoint args]⟩

def Container.with_directory (c : Container) (path : String) (sourcePath : String) : Container :=
  ⟨c.ops ++ [ContainerOp.withDirectory path sourcePath]⟩

def Container.with_registry_auth (c : Container) (address : String)
    (username : Option String) (secret : Option Secret) : Container :=
  ⟨c.ops ++ [ContainerOp.withRegistryAuth address username secret]⟩

/-- The repository-root directory argument (`RootDir`); it carries the
lockfile the resolution reads.  Its exclude patterns are the module-level
`IGNORE` annotation (see `IGNORE` below). -/
structure RootDir where
  lock : Lockfile
  deriving DecidableEq

/-- `copy_source_code`: one `with_directory` operation per entry of the
sources map, copying `root_dir.directory(path)` into
`/{target_dir}/{path}`.  The Python default `target_dir="src"` is passed
explicitly by the callers here. -/
def copy_source_code (container : Container) (root_dir : RootDir)
    (project_sources_map : List (String × String)) (target_dir : String) : Container :=
  project_sources_map.foldl
    (fun c kv => c.with_directory ("/" ++ target_dir ++ "/" ++ kv.2) kv.2) container

/-- `install_local_dependencies`: `uv sync --inexact --package project`. -/
def install_local_dependencies (container : Container) (project : String) : Container :=
  container.with_exec ["uv", "sync", "--inexact", "--package", project]

/-- `container_with_third_party_dependencies`: a fresh build context that
holds only `pyproject.toml`, `uv.lock`, the `Dockerfile` and a dummy
`README.md`, then `docker_build` targeting the `deps-dev` stage with
`PACKAGE=project`. -/
def container_with_third_party_dependencies (project : String) : Container :=
  ⟨[ContainerOp.withFile "pyproject.toml" "pyproject.toml",
    ContainerOp.withFile "uv.lock" "uv.lock",
    ContainerOp.withFile "/Dockerfile" "Dockerfile",
    ContainerOp.withNewFile "README.md" "Dummy README.md",
    ContainerOp.dockerBuild "deps-dev" "/Dockerfile" [("PACKAGE", project)]]⟩

/-- `build_project`: third-party dependency layer, closure resolution,
source copy, debug sleep, editable install, then workdir at
`project_sources_map[project]` (a Python `KeyError` when the map lacks the
target).  The Python `debug_sleep` float only ever appears as
`str(debug_sleep)`, so it is embedded by that rendered string. -/
def build_project (fuel : Nat) (root_dir : RootDir) (project : String)
    (debug_sleep : String) : PyResult Container := do
  let container := container_with_third_party_dependencies project
  let project_sources_map ← get_project_sources_map fuel root_dir.lock project
  let container := copy_source_code container root_dir project_sources_map "src"
  let container := container.with_exec ["sleep", debug_sleep]
  let container := install_local_dependencies container project
  match dictGet project project_sources_map with
  | some path => pure (container.with_workdir ("/src/" ++ path))
  | none => PyResult.keyError

/-- The body of `fastapi_build` once all arguments are bound: default the
port and host, build the project container (`debug_sleep=0`, rendered "0"
by `str`), then set the fastapi entrypoint. -/
def fastapi_build (fuel : Nat) (root_dir : RootDir) (project : String)
    (port : Option String) (host : Option String) : PyResult Container := do
  let port_to_use := port.getD "8080"
  let host_to_use := host.getD "0.0.0.0"
  let container ← build_project fuel root_dir project "0"
  pure (container.with_entrypoint
    ["fastapi", "run", "src/" ++ project, "--port", port_to_use, "--host", host_to_use])

/-- Python call binding for `fastapi_build`: all four parameters lack
default values, so a call site that does not supply one raises `TypeError`
before the body runs.  The outer option in each slot means "supplied at the
call site"; the inner option is the parameter's own `str | None` type. -/
def fastapi_build_call (fuel : Nat) (root_dir : Option RootDir) (project : Option String)
    (port : Option (Option String)) (host : Option (Option String)) : PyResult Container :=
  match root_dir, project, port, host with
  | some rd, some prj, some po, some ho => fastapi_build fuel rd prj po ho
  | _, _, _, _ => .typeError

/-- Python `'/'.join(items)`. -/
def joinSlash : List String → String
  | [] => ""
  | [s] => s
  | s :: rest => s ++ "/" ++ joinSlash rest

/-- `build_container_destination`: `'/'.join` of those of
registry / namespace / repository that are not `None`, then
`f"{joined}:{tag}"` — no case normalization of any kind occurs. -/
def build_container_destination (registry : String) (nspace : Option String)
    (repository : String) (tag : String) : String :=
  joinSlash (([some registry, nspace, some repository]).filterMap id) ++ ":" ++ tag

/-- Call binding for `build_container_destination`: all four parameters
lack defaults (`namespace` is typed `str | None` but still required), so a
missing argument raises `TypeError` — as does `'/'.join` when the supplied
`registry` value is itself `None`. -/
def build_container_destination_call (registry : Option (Option String))
    (nspace : Option (Option String)) (repository : Option String)
    (tag : Option String) : PyResult String :=
  match registry, nspace, repository, tag with
  | some rv, some nv, some repv, some tv =>
    match rv with
    | some r => .ok (build_container_destination r nv repv tv)
    | none => .typeError
  | _, _, _, _ => .typeError

/-- `attach_registry_auth` body: attach credentials exactly when the
registry string equals "ghcr.io"; the username and password are forwarded
whether or not they are present — their presence is never checked. -/
def attach_registry_auth (container : Container) (registry : String)
    (username : Option String) (password : Option Secret) : Container :=
  if registry = "ghcr.io" then
    container.with_registry_auth registry username password
  else
    container

/-- Call binding for `attach_registry_auth`: all four parameters lack
defaults, so omitting `container` raises `TypeError`.  When every argument
is supplied but the dynamic `registry` value is `None`, the comparison
`None == "ghcr.io"` is false and the container is returned unchanged. -/
def attach_registry_auth_call (container : Option Container)
    (registry : Option (Option String)) (username : Option (Option String))
    (password : Option (Option Secret)) : PyResult Container :=
  match container, registry, username, password with
  | some c, some rv, some uv, some pv =>
    match rv with
    | some r => .ok (attach_registry_auth c r uv pv)
    | none => .ok c
  | _, _, _, _ => .typeError

/-- Python `s.split("/")` on a value that may be `None`
(`AttributeError` when it is). -/
def pySplitSlash : Option String → PyResult (List String)
  | none => .attributeError
  | some s => .ok (s.splitOn "/")

/-- Python list indexing (`IndexError` out of range). -/
def pyIndex (l : List String) (i : Nat) : PyResult String :=
  match l.get? i with
  | some x => .ok x
  | none => .indexError

/-- `fastapi_publish`: compute `is_dev` and the tag, call `fastapi_build`
without the required `port` and `host` arguments, then branch — the dev
branch calls `build_container_destination` without the required
`namespace` argument, and the other branch calls `attach_registry_auth`
without the required `container` argument, splits `image_name`, and builds
the destination.  `container.publish(repository)` is embedded as returning
the destination reference. -/
def fastapi_publish (fuel : Nat) (root_dir : RootDir) (project : String)
    (dev : Option Bool) (tag : Option String) (registry : Option String)
    (image_name : Option String) (username : Option String)
    (password : Option Secret) : PyResult String := do
  let is_dev := dev == some true
  let tag_to_use := tag.getD "latest"
  let container ← fastapi_build_call fuel (some root_dir) (some project) none none
  if is_dev then
    let repository ← build_container_destination_call (some (some "ttl.sh")) none
      (some "python-monorepo") (some "20m")
    pure repository
  else do
    let container2 ← attach_registry_auth_call none (some registry) (some username)
      (some password)
    let parts ← pySplitSlash image_name
    let nsv ← pyIndex parts 0
    let repv ← pyIndex parts 1
    let repository ← build_container_destination_call (some registry) (some (some nsv))
      (some repv) (some tag_to_use)
    pure repository

/-- Modelled from the spec: the external build engine's command-execution
contract — "any underlying build-engine operation failing (missing file,
failed command exit) is fatal and aborts the pipeline".  An environment
assigns every container state (the operations that produced it, the
pending `with_exec` last) the exit code and the captured standard output
of its command. -/
structure ExecEnv where
  exitCode : List ContainerOp → Nat
  stdoutOf : List ContainerOp → String

/-- `container.stdout()` under an engine environment: the captured text
when the command exited zero, otherwise a fatal abort carrying the
container's operations and the exit code. -/
def containerStdout (env : ExecEnv) (c : Container) : Except (List ContainerOp × Nat) String :=
  if env.exitCode c.ops = 0 then .ok (env.stdoutOf c.ops) else .error (c.ops, env.exitCode c.ops)

/-- `verify` after `build_project` produced `container`: the three gate
commands run strictly in sequence, each as `with_exec(...).stdout()`, with
no exception handling between them.  The second component of the result
records which gate commands were actually executed before the function
returned or aborted. -/
def verify (env : ExecEnv) (container : Container) :
    Except (List ContainerOp × Nat) String × List (List String) :=
  match containerStdout env (container.with_exec ["pytest"]) with
  | .error e => (.error e, [["pytest"]])
  | .ok pytest_output =>
    match containerStdout env (container.with_exec ["pyright"]) with
    | .error e => (.error e, [["pytest"], ["pyright"]])
    | .ok pyright_output =>
      match containerStdout env (container.with_exec ["ruff", "check"]) with
      | .error e => (.error e, [["pytest"], ["pyright"], ["ruff", "check"]])
      | .ok ruff_output =>
        (.ok ("\nPytest:\n" ++ pytest_output ++ "\n\nPyright:\n" ++ pyright_output ++
          "\n\nRuff:\n" ++ ruff_output ++ "\n"),
         [["pytest"], ["pyright"], ["ruff", "check"]])

/-- The module-level `IGNORE` pattern list.  It is attached identically to
both directory annotations (`RootDir` and `SourceDir`), and every build
variant — `build_project` / `verify` as well as `fastapi_slim_build` /
`fastapi_slim_publish` and the distroless variants — takes its directories
through those annotations; no other exclude filtering exists in the
module. -/
def IGNORE : List String :=
  [".env", ".git", "**/.venv", "**__pycache__**", ".dagger/sdk",
   "**/.pytest_cache", "**/.ruff_cache", ".envrc"]

/-- Exclude-pattern set of the `RootDir` annotation (used by every
pipeline, the production publish variants included). -/
def RootDirPatterns : List String := IGNORE

/-- Exclude-pattern set of the `SourceDir` annotation. -/
def SourceDirPatterns : List String := IGNORE

/-- A local-to-local dependency edge of a lockfile: some record named `x`
lists a named dependency `y` that is a workspace member. -/
def LocalEdge (lock : Lockfile) (x y : String) : Prop :=
  ∃ r, r ∈ lock.packages ∧ r.name = x ∧ (some y) ∈ r.dependencies ∧ y ∈ lock.members

/-- Reachability along local-to-local dependency edges. -/
def LocalReach (lock : Lockfile) : String → String → Prop :=
  Relation.ReflTransGen (LocalEdge lock)

/-- `x` is fully expanded into `S`: every named workspace-member dependency
of every record named `x` lies in `S`. -/
def ExpandedIn (lock : Lockfile) (x : String) (S : List String) : Prop :=
  ∀ r, r ∈ lock.packages → r.name = x →
    ∀ d, (some d) ∈ r.dependencies → d ∈ lock.members → d ∈ S

/-- The two-package dependency cycle of the termination claim:
`a` depends on `b` and `b` depends on `a`, both workspace members. -/
def cyclePkgA : Package := ⟨"a", [some "b"], some "projects/a"⟩

def cyclePkgB : Package := ⟨"b", [some "a"], some "projects/b"⟩

def cycleLock : Lockfile := ⟨["a", "b"], [cyclePkgA, cyclePkgB]⟩

/-- The closure example of the spec: workspace members `app` and `lib1`,
`app` depends on `lib1`, `lib1` depends on the third-party `requests`
(present as a registry package record, not a member, no editable path). -/
def exLock : Lockfile :=
  ⟨["app", "lib1"],
   [⟨"app", [some "lib1"], some "projects/app"⟩,
    ⟨"lib1", [some "requests"], some "projects/lib1"⟩,
    ⟨"requests", [], none⟩]⟩

/-- The sources map `get_project_sources_map` computes for `app` over
`exLock`. -/
def exMap : List (String × String) :=
  [("app", "projects/app"), ("lib1", "projects/lib1")]

/-- A lockfile whose member `b` is referenced as a dependency of `a` but
has no package record of its own. -/
def c3Lock : Lockfile := ⟨["a", "b"], [⟨"a", [some "b"], some "projects/a"⟩]⟩

/-- A lockfile with a single member `a`; the target `zzz` used against it
is neither a member nor the name of any record. -/
def c4Lock : Lockfile := ⟨["a"], [⟨"a", [], some "projects/a"⟩]⟩

/-- An empty container to instantiate container-level statements. -/
def demoContainer : Container := ⟨[]⟩

/-- An engine environment in which every gate command succeeds. -/
def envOk : ExecEnv := ⟨fun _ => 0, fun _ => "captured"⟩

/-- An engine environment in which the pytest gate exits 1 and everything
else exits 0. -/
def envFail : ExecEnv :=
  ⟨fun ops => if ops = [ContainerOp.withExec ["pytest"]] then 1 else 0, fun _ => "captured"⟩

/-- Prefix test on character lists (structural, evaluable). -/
def charsPrefix : List Char → List Char → Bool
  | [], _ => true
  | _ :: _, [] => false
  | c :: cs, d :: ds => c == d && charsPrefix cs ds

/-- Substring test on character lists (structural, evaluable). -/
def charsSub (sub : List Char) : List Char → Bool
  | [] => charsPrefix sub []
  | d :: ds => charsPrefix sub (d :: ds) || charsSub sub ds

/-- Whether a glob pattern even mentions the character sequence "tests"; a
pattern that never mentions it cannot single out test directories. -/
def mentionsTests (pat : String) : Bool :=
  charsSub "tests".data pat.data

/-- The repository root used by the closure example. -/
def exRoot : RootDir := ⟨exLock⟩

theorem mem_insertName {s x : String} {l : List String} :
    x ∈ insertName s l ↔ x = s ∨ x ∈ l := by
  unfold insertName
  by_cases h : s ∈ l
  · simp only [if_pos h]
    constructor
    · exact fun hx => Or.inr hx
    · rintro (rfl | hx)
      · exact h
      · exact hx
  · simp only [if_neg h, List.mem_append, List.mem_singleton]
    exact Or.comm

theorem self_mem_insertName {s : String} {l : List String} : s ∈ insertName s l :=
  mem_insertName.mpr (Or.inl rfl)

theorem mem_insertName_of_mem {s x : String} {l : List String} (h : x ∈ l) :
    x ∈ insertName s l :=
  mem_insertName.mpr (Or.inr h)

theorem depLoop_mono_bound (members : List String)
    (rec : String → List String → Option (List String))
    (hrec : ∀ s a o, rec s a = some o →
      (∀ x, x ∈ a → x ∈ o) ∧ (∀ x, x ∈ o → x ∈ a ∨ x ∈ members)) :
    ∀ deps acc out, depLoop members rec deps acc = some out →
      (∀ x, x ∈ acc → x ∈ out) ∧ (∀ x, x ∈ out → x ∈ acc ∨ x ∈ members) := by
  intro deps
  induction deps with
  | nil =>
    intro acc out h
    have hao : acc = out := by simpa [depLoop] using h
    subst hao
    exact ⟨fun x hx => hx, fun x hx => Or.inl hx⟩
  | cons dref rest ih =>
    intro acc out h
    match dref with
    | none =>
      exact ih acc out (by simpa [depLoop] using h)
    | some dname =>
      by_cases hm : dname ∈ members
      · simp only [depLoop, if_pos hm] at h
        cases hrc : rec dname (insertName dname acc) with
        | none => rw [hrc] at h; cases h
        | some acc3 =>
          rw [hrc] at h
          obtain ⟨h1, h2⟩ := hrec dname (insertName dname acc) acc3 hrc
          obtain ⟨h3, h4⟩ := ih acc3 out h
          refine ⟨fun x hx => h3 x (h1 x (mem_insertName_of_mem hx)), fun x hx => ?_⟩
          rcases h4 x hx with h5 | h5
          · rcases h2 x h5 with h6 | h6
            · rcases mem_insertName.mp h6 with rfl | h7
              · exact Or.inr hm
              · exact Or.inl h7
            · exact Or.inr h6
          · exact Or.inr h5
      · exact ih acc out (by simpa [depLoop, if_neg hm] using h)

theorem pkgLoop_mono_bound (members : List String)
    (rec : String → List String → Option (List String))
    (hrec : ∀ s a o, rec s a = some o →
      (∀ x, x ∈ a → x ∈ o) ∧ (∀ x, x ∈ o → x ∈ a ∨ x ∈ members)) :
    ∀ ps pkgName acc out, pkgLoop members rec ps pkgName acc = some out →
      (∀ x, x ∈ acc → x ∈ out) ∧ (∀ x, x ∈ out → x ∈ acc ∨ x ∈ members) := by
  intro ps
  induction ps with
  | nil =>
    intro pkgName acc out h
    have hao : acc = out := by simpa [pkgLoop] using h
    subst hao
    exact ⟨fun x hx => hx, fun x hx => Or.inl hx⟩
  | cons p rest ih =>
    intro pkgName acc out h
    by_cases hp : p.name = pkgName
    · simp only [pkgLoop, if_pos hp] at h
      cases hdl : depLoop members rec p.dependencies acc with
      | none => rw [hdl] at h; cases h
      | some acc2 =>
        rw [hdl] at h
        obtain ⟨h1, h2⟩ := depLoop_mono_bound members rec hrec p.dependencies acc acc2 hdl
        obtain ⟨h3, h4⟩ := ih pkgName acc2 out h
        refine ⟨fun x hx => h3 x (h1 x hx), fun x hx => ?_⟩
        rcases h4 x hx with h5 | h5
        · exact h2 x h5
        · exact Or.inr h5
    · exact ih pkgName acc out (by simpa [pkgLoop, if_neg hp] using h)

theorem find_deps_mono_bound (members : List String) (pkgs : List Package) :
    ∀ fuel s a o, find_deps_for_package members pkgs fuel s a = some o →
      (∀ x, x ∈ a → x ∈ o) ∧ (∀ x, x ∈ o → x ∈ a ∨ x ∈ members) := by
  intro fuel
  induction fuel with
  | zero => intro s a o h; cases h
  | succ n ih =>
    intro s a o h
    exact pkgLoop_mono_bound members _ (fun s2 a2 o2 h2 => ih s2 a2 o2 h2) pkgs s a o h

theorem depLoop_reach (lock : Lockfile) (root : String)
    (rec : String → List String → Option (List String))
    (hrec : ∀ s a o, rec s a = some o → LocalReach lock root s →
      (∀ x, x ∈ a → LocalReach lock root x) → ∀ x, x ∈ o → LocalReach lock root x) :
    ∀ pkgName deps acc out, depLoop lock.members rec deps acc = some out →
      LocalReach lock root pkgName →
      (∀ d, (some d) ∈ deps → d ∈ lock.members → LocalEdge lock pkgName d) →
      (∀ x, x ∈ acc → LocalReach lock root x) →
      ∀ x, x ∈ out → LocalReach lock root x := by
  intro pkgName deps
  induction deps with
  | nil =>
    intro acc out h hr hedge hacc
    have hao : acc = out := by simpa [depLoop] using h
    subst hao
    exact hacc
  | cons dref rest ih =>
    intro acc out h hr hedge hacc
    match dref with
    | none =>
      exact ih acc out (by simpa [depLoop] using h) hr
        (fun d hd hm => hedge d (List.mem_cons_of_mem _ hd) hm) hacc
    | some dname =>
      by_cases hm : dname ∈ lock.members
      · simp only [depLoop, if_pos hm] at h
        cases hrc : rec dname (insertName dname acc) with
        | none => rw [hrc] at h; cases h
        | some acc3 =>
          rw [hrc] at h
          have hdreach : LocalReach lock root dname :=
            Relation.ReflTransGen.tail hr (hedge dname (List.mem_cons_self _ _) hm)
          have hacc2 : ∀ x, x ∈ insertName dname acc → LocalReach lock root x := by
            intro x hx
            rcases mem_insertName.mp hx with rfl | hx2
            · exact hdreach
            · exact hacc x hx2
          have hacc3 : ∀ x, x ∈ acc3 → LocalReach lock root x :=
            hrec dname (insertName dname acc) acc3 hrc hdreach hacc2
          exact ih acc3 out h hr
            (fun d hd hm2 => hedge d (List.mem_cons_of_mem _ hd) hm2) hacc3
      · exact ih acc out (by simpa [depLoop, if_neg hm] using h) hr
          (fun d hd hm2 => hedge d (List.mem_cons_of_mem _ hd) hm2) hacc

theorem pkgLoop_reach (lock : Lockfile) (root : String)
    (rec : String → List String → Option (List String))
    (hrec : ∀ s a o, rec s a = some o → LocalReach lock root s →
      (∀ x, x ∈ a → LocalReach lock root x) → ∀ x, x ∈ o → LocalReach lock root x) :
    ∀ ps pkgName acc out, pkgLoop lock.members rec ps pkgName acc = some out →
      (∀ r, r ∈ ps → r ∈ lock.packages) →
      LocalReach lock root pkgName →
      (∀ x, x ∈ acc → LocalReach lock root x) →
      ∀ x, x ∈ out → LocalReach lock root x := by
  intro ps
  induction ps with
  | nil =>
    intro pkgName acc out h hsub hr hacc
    have hao : acc = out := by simpa [pkgLoop] using h
    subst hao
    exact hacc
  | cons p rest ih =>
    intro pkgName acc out h hsub hr hacc
    by_cases hp : p.name = pkgName
    · simp only [pkgLoop, if_pos hp] at h
      cases hdl : depLoop lock.members rec p.dependencies acc with
      | none => rw [hdl] at h; cases h
      | some acc2 =>
        rw [hdl] at h
        have hedge : ∀ d, (some d) ∈ p.dependencies → d ∈ lock.members →
            LocalEdge lock pkgName d := by
          intro d hd hm
          exact ⟨p, hsub p (List.mem_cons_self _ _), hp, hd, hm⟩
        have hacc2 : ∀ x, x ∈ acc2 → LocalReach lock root x :=
          depLoop_reach lock root rec hrec pkgName p.dependencies acc acc2 hdl hr hedge hacc
        exact ih pkgName acc2 out h (fun r hrr => hsub r (List.mem_cons_of_mem _ hrr)) hr hacc2
    · exact ih pkgName acc out (by simpa [pkgLoop, if_neg hp] using h)
        (fun r hrr => hsub r (List.mem_cons_of_mem _ hrr)) hr hacc

theorem find_deps_reach (lock : Lockfile) (root : String) :
    ∀ fuel s a o, find_deps_for_package lock.members lock.packages fuel s a = some o →
      LocalReach lock root s → (∀ x, x ∈ a → LocalReach lock root x) →
      ∀ x, x ∈ o → LocalReach lock root x := by
  intro fuel
  induction fuel with
  | zero => intro s a o h; cases h
  | succ n ih =>
    intro s a o h hr hacc
    exact pkgLoop_reach lock root _ (fun s2 a2 o2 h2 => ih s2 a2 o2 h2)
      lock.packages s a o h (fun r hrr => hrr) hr hacc

theorem ExpandedIn.mono {lock : Lockfile} {x : String} {S T : List String}
    (h : ExpandedIn lock x S) (hsub : ∀ y, y ∈ S → y ∈ T) : ExpandedIn lock x T := by
  intro r hr hn d hd hm
  exact hsub d (h r hr hn d hd hm)

theorem depLoop_expand (lock : Lockfile)
    (rec : String → List String → Option (List String))
    (hrecM : ∀ s a o, rec s a = some o →
      (∀ x, x ∈ a → x ∈ o) ∧ (∀ x, x ∈ o → x ∈ a ∨ x ∈ lock.members))
    (hrecE : ∀ s a o, rec s a = some o →
      (∀ x, x ∈ o → x ∈ a ∨ ExpandedIn lock x o) ∧ ExpandedIn lock s o) :
    ∀ deps acc out, depLoop lock.members rec deps acc = some out →
      (∀ x, x ∈ out → x ∈ acc ∨ ExpandedIn lock x out) ∧
      (∀ d, (some d) ∈ deps → d ∈ lock.members → d ∈ out) := by
  intro deps
  induction deps with
  | nil =>
    intro acc out h
    have hao : acc = out := by simpa [depLoop] using h
    subst hao
    exact ⟨fun x hx => Or.inl hx, fun d hd => absurd hd (List.not_mem_nil _)⟩
  | cons dref rest ih =>
    intro acc out h
    match dref with
    | none =>
      obtain ⟨h1, h2⟩ := ih acc out (by simpa [depLoop] using h)
      refine ⟨h1, fun d hd hm => ?_⟩
      rcases List.mem_cons.mp hd with heq | hd2
      · cases heq
      · exact h2 d hd2 hm
    | some dname =>
      by_cases hm : dname ∈ lock.members
      · simp only [depLoop, if_pos hm] at h
        cases hrc : rec dname (insertName dname acc) with
        | none => rw [hrc] at h; cases h
        | some acc3 =>
          rw [hrc] at h
          obtain ⟨hrcMono, _⟩ := hrecM dname (insertName dname acc) acc3 hrc
          obtain ⟨hE1, hE2⟩ := hrecE dname (insertName dname acc) acc3 hrc
          obtain ⟨h1, h2⟩ := ih acc3 out h
          have hmono3 : ∀ x, x ∈ acc3 → x ∈ out :=
            (depLoop_mono_bound lock.members rec hrecM rest acc3 out h).1
          refine ⟨fun x hx => ?_, fun d hd hm2 => ?_⟩
          · rcases h1 x hx with h3 | h3
            · rcases hE1 x h3 with h4 | h4
              · rcases mem_insertName.mp h4 with rfl | h5
                · exact Or.inr (hE2.mono hmono3)
                · exact Or.inl h5
              · exact Or.inr (h4.mono hmono3)
            · exact Or.inr h3
          · rcases List.mem_cons.mp hd with heq | hd2
            · have hdn : d = dname := by injection heq
              subst hdn
              exact hmono3 d (hrcMono d self_mem_insertName)
            · exact h2 d hd2 hm2
      · obtain ⟨h1, h2⟩ := ih acc out (by simpa [depLoop, if_neg hm] using h)
        refine ⟨h1, fun d hd hm2 => ?_⟩
        rcases List.mem_cons.mp hd with heq | hd2
        · have hdn : d = dname := by injection heq
          subst hdn
          exact absurd hm2 hm
        · exact h2 d hd2 hm2

theorem pkgLoop_expand (lock : Lockfile)
    (rec : String → List String → Option (List String))
    (hrecM : ∀ s a o, rec s a = some o →
      (∀ x, x ∈ a → x ∈ o) ∧ (∀ x, x ∈ o → x ∈ a ∨ x ∈ lock.members))
    (hrecE : ∀ s a o, rec s a = some o →
      (∀ x, x ∈ o → x ∈ a ∨ ExpandedIn lock x o) ∧ ExpandedIn lock s o) :
    ∀ ps pkgName acc out, pkgLoop lock.members rec ps pkgName acc = some out →
      (∀ x, x ∈ out → x ∈ acc ∨ ExpandedIn lock x out) ∧
      (∀ r, r ∈ ps → r.name = pkgName →
        ∀ d, (some d) ∈ r.dependencies → d ∈ lock.members → d ∈ out) := by
  intro ps
  induction ps with
  | nil =>
    intro pkgName acc out h
    have hao : acc = out := by simpa [pkgLoop] using h
    subst hao
    exact ⟨fun x hx => Or.inl hx, fun r hr => absurd hr (List.not_mem_nil _)⟩
  | cons p rest ih =>
    intro pkgName acc out h
    by_cases hp : p.name = pkgName
    · simp only [pkgLoop, if_pos hp] at h
      cases hdl : depLoop lock.members rec p.dependencies acc with
      | none => rw [hdl] at h; cases h
      | some acc2 =>
        rw [hdl] at h
        obtain ⟨hD1, hD2⟩ := depLoop_expand lock rec hrecM hrecE p.dependencies acc acc2 hdl
        obtain ⟨h1, h2⟩ := ih pkgName acc2 out h
        have hmono2 : ∀ x, x ∈ acc2 → x ∈ out :=
          (pkgLoop_mono_bound lock.members rec hrecM rest pkgName acc2 out h).1
        refine ⟨fun x hx => ?_, fun r hr hn d hd hm => ?_⟩
        · rcases h1 x hx with h3 | h3
          · rcases hD1 x h3 with h4 | h4
            · exact Or.inl h4
            · exact Or.inr (h4.mono hmono2)
          · exact Or.inr h3
        · rcases List.mem_cons.mp hr with rfl | hr2
          · exact hmono2 d (hD2 d hd hm)
          · exact h2 r hr2 hn d hd hm
    · obtain ⟨h1, h2⟩ := ih pkgName acc out (by simpa [pkgLoop, if_neg hp] using h)
      refine ⟨h1, fun r hr hn d hd hm => ?_⟩
      rcases List.mem_cons.mp hr with rfl | hr2
      · exact absurd hn hp
      · exact h2 r hr2 hn d hd hm

theorem find_deps_expand (lock : Lockfile) :
    ∀ fuel s a o, find_deps_for_package lock.members lock.packages fuel s a = some o →
      (∀ x, x ∈ o → x ∈ a ∨ ExpandedIn lock x o) ∧ ExpandedIn lock s o := by
  intro fuel
  induction fuel with
  | zero => intro s a o h; cases h
  | succ n ih =>
    intro s a o h
    obtain ⟨h1, h2⟩ := pkgLoop_expand lock _
      (fun s2 a2 o2 h2 => find_deps_mono_bound lock.members lock.packages n s2 a2 o2 h2)
      (fun s2 a2 o2 h2 => ih s2 a2 o2 h2) lock.packages s a o h
    exact ⟨h1, fun r hr hn d hd hm => h2 r hr hn d hd hm⟩

theorem depLoop_diverges (members S : List String)
    (rec : String → List String → Option (List String))
    (hrec : ∀ s, s ∈ S → ∀ a, rec s a = none) :
    ∀ deps acc, (∃ d, (some d) ∈ deps ∧ d ∈ members ∧ d ∈ S) →
      depLoop members rec deps acc = none := by
  intro deps
  induction deps with
  | nil =>
    rintro acc ⟨d, hd, _, _⟩
    exact absurd hd (List.not_mem_nil _)
  | cons dref rest ih =>
    rintro acc ⟨d, hd, hm, hS⟩
    match dref with
    | none =>
      have hd2 : (some d) ∈ rest := by
        rcases List.mem_cons.mp hd with heq | hd2
        · cases heq
        · exact hd2
      simpa [depLoop] using ih acc ⟨d, hd2, hm, hS⟩
    | some dname =>
      by_cases hmem : dname ∈ members
      · by_cases hdS : dname ∈ S
        · have h0 := hrec dname hdS (insertName dname acc)
          simp [depLoop, if_pos hmem, h0]
        · have hd2 : (some d) ∈ rest := by
            rcases List.mem_cons.mp hd with heq | hd2
            · have : d = dname := by injection heq
              subst this
              exact absurd hS hdS
            · exact hd2
          cases hrc : rec dname (insertName dname acc) with
          | none => simp [depLoop, if_pos hmem, hrc]
          | some acc3 =>
            simp only [depLoop, if_pos hmem, hrc]
            exact ih acc3 ⟨d, hd2, hm, hS⟩
      · have hd2 : (some d) ∈ rest := by
          rcases List.mem_cons.mp hd with heq | hd2
          · have : d = dname := by injection heq
            subst this
            exact absurd hm hmem
          · exact hd2
        simpa [depLoop, if_neg hmem] using ih acc ⟨d, hd2, hm, hS⟩

theorem pkgLoop_diverges (members S : List String)
    (rec : String → List String → Option (List String))
    (hrec : ∀ s, s ∈ S → ∀ a, rec s a = none) :
    ∀ ps pkgName acc,
      (∃ r, r ∈ ps ∧ r.name = pkgName ∧
        ∃ d, (some d) ∈ r.dependencies ∧ d ∈ members ∧ d ∈ S) →
      pkgLoop members rec ps pkgName acc = none := by
  intro ps
  induction ps with
  | nil =>
    rintro pkgName acc ⟨r, hr, _, _⟩
    exact absurd hr (List.not_mem_nil _)
  | cons p rest ih =>
    rintro pkgName acc ⟨r, hr, hn, hwit⟩
    rcases List.mem_cons.mp hr with rfl | hr2
    · have hdl : depLoop members rec r.dependencies acc = none :=
        depLoop_diverges members S rec hrec r.dependencies acc hwit
      simp [pkgLoop, if_pos hn, hdl]
    · by_cases hp : p.name = pkgName
      · simp only [pkgLoop, if_pos hp]
        cases hdl : depLoop members rec p.dependencies acc with
        | none => rfl
        | some acc2 => exact ih pkgName acc2 ⟨r, hr2, hn, hwit⟩
      · simpa [pkgLoop, if_neg hp] using ih pkgName acc ⟨r, hr2, hn, hwit⟩

theorem find_deps_diverges (members : List String) (pkgs : List Package) (S : List String)
    (hS : ∀ x, x ∈ S → ∃ r, r ∈ pkgs ∧ r.name = x ∧
      ∃ d, (some d) ∈ r.dependencies ∧ d ∈ members ∧ d ∈ S) :
    ∀ fuel x, x ∈ S → ∀ acc, find_deps_for_package members pkgs fuel x acc = none := by
  intro fuel
  induction fuel with
  | zero => intro x hx acc; rfl
  | succ n ih =>
    intro x hx acc
    exact pkgLoop_diverges members S _ (fun s hs a => ih s hs a) pkgs x acc (hS x hx)

theorem dictInsert_self (k v : String) (d : List (String × String)) :
    (k, v) ∈ dictInsert k v d := by
  unfold dictInsert
  by_cases h : d.any (fun kv => kv.1 == k)
  · simp only [if_pos h]
    obtain ⟨kv0, hkv0, hbeq⟩ := List.any_eq_true.mp h
    have hk : kv0.1 = k := by simpa using hbeq
    refine List.mem_map.mpr ⟨kv0, hkv0, ?_⟩
    simp [hk]
  · simp [if_neg h]

theorem dictInsert_mem {k v : String} {d : List (String × String)} {kv : String × String}
    (h : kv ∈ dictInsert k v d) : kv = (k, v) ∨ kv ∈ d := by
  unfold dictInsert at h
  by_cases hc : d.any (fun kv2 => kv2.1 == k)
  · rw [if_pos hc] at h
    obtain ⟨kv0, hkv0, heq⟩ := List.mem_map.mp h
    by_cases hk : kv0.1 = k
    · left
      rw [if_pos hk] at heq
      exact heq.symm
    · right
      rw [if_neg hk] at heq
      exact heq ▸ hkv0
  · rw [if_neg hc] at h
    rcases List.mem_append.mp h with h2 | h2
    · exact Or.inr h2
    · exact Or.inl (List.mem_singleton.mp h2)

theorem dictInsert_mem_key {x : String} {k v : String} {d : List (String × String)}
    (h : ∃ w, (x, w) ∈ d) : ∃ w, (x, w) ∈ dictInsert k v d := by
  by_cases hx : x = k
  · subst hx
    exact ⟨v, dictInsert_self x v d⟩
  · obtain ⟨w, hw⟩ := h
    unfold dictInsert
    by_cases hc : d.any (fun kv2 => kv2.1 == k)
    · refine ⟨w, ?_⟩
      rw [if_pos hc]
      refine List.mem_map.mpr ⟨(x, w), hw, ?_⟩
      simp [hx]
    · exact ⟨w, by rw [if_neg hc]; exact List.mem_append.mpr (Or.inl hw)⟩

theorem buildSourcesMap_keys (lp : List String) :
    ∀ pkgs acc m, buildSourcesMap lp pkgs acc = .ok m →
      ∀ kv, kv ∈ m → kv.1 ∈ lp ∨ kv ∈ acc := by
  intro pkgs
  induction pkgs with
  | nil =>
    intro acc m h kv hkv
    have : acc = m := by simpa [buildSourcesMap] using h
    subst this
    exact Or.inr hkv
  | cons p rest ih =>
    intro acc m h kv hkv
    by_cases hp : p.name ∈ lp
    · simp only [buildSourcesMap, if_pos hp] at h
      cases hse : p.sourceEditable with
      | none => rw [hse] at h; cases h
      | some path =>
        rw [hse] at h
        rcases ih (dictInsert p.name path acc) m h kv hkv with h2 | h2
        · exact Or.inl h2
        · rcases dictInsert_mem h2 with rfl | h3
          · exact Or.inl hp
          · exact Or.inr h3
    · simp only [buildSourcesMap, if_neg hp] at h
      exact ih acc m h kv hkv

theorem buildSourcesMap_key_present (lp : List String) :
    ∀ pkgs acc m, buildSourcesMap lp pkgs acc = .ok m →
      ∀ x, x ∈ lp →
        ((∃ r, r ∈ pkgs ∧ r.name = x) ∨ (∃ w, (x, w) ∈ acc)) →
        ∃ w, (x, w) ∈ m := by
  intro pkgs
  induction pkgs with
  | nil =>
    intro acc m h x hx hcase
    have : acc = m := by simpa [buildSourcesMap] using h
    subst this
    rcases hcase with ⟨r, hr, _⟩ | hw
    · exact absurd hr (List.not_mem_nil _)
    · exact hw
  | cons p rest ih =>
    intro acc m h x hx hcase
    by_cases hp : p.name ∈ lp
    · simp only [buildSourcesMap, if_pos hp] at h
      cases hse : p.sourceEditable with
      | none => rw [hse] at h; cases h
      | some path =>
        rw [hse] at h
        refine ih (dictInsert p.name path acc) m h x hx ?_
        rcases hcase with ⟨r, hr, hn⟩ | hw
        · rcases List.mem_cons.mp hr with rfl | hr2
          · right
            subst hn
            exact ⟨path, dictInsert_self r.name path acc⟩
          · exact Or.inl ⟨r, hr2, hn⟩
        · exact Or.inr (dictInsert_mem_key hw)
    · simp only [buildSourcesMap, if_neg hp] at h
      refine ih acc m h x hx ?_
      rcases hcase with ⟨r, hr, hn⟩ | hw
      · rcases List.mem_cons.mp hr with rfl | hr2
        · subst hn
          exact absurd hx hp
        · exact Or.inl ⟨r, hr2, hn⟩
      · exact Or.inr hw

theorem buildSourcesMap_skip (lp : List String) :
    ∀ pkgs acc, (∀ r, r ∈ pkgs → r.name ∉ lp) →
      buildSourcesMap lp pkgs acc = .ok acc := by
  intro pkgs
  induction pkgs with
  | nil => intro acc _; rfl
  | cons p rest ih =>
    intro acc hnone
    have hp : p.name ∉ lp := hnone p (List.mem_cons_self _ _)
    simp only [buildSourcesMap, if_neg hp]
    exact ih acc (fun r hr => hnone r (List.mem_cons_of_mem _ hr))

theorem pkgLoop_no_match (members : List String)
    (rec : String → List String → Option (List String)) :
    ∀ ps pkgName acc, (∀ r, r ∈ ps → r.name ≠ pkgName) →
      pkgLoop members rec ps pkgName acc = some acc := by
  intro ps
  induction ps with
  | nil => intro pkgName acc _; rfl
  | cons p rest ih =>
    intro pkgName acc hnone
    have hp : p.name ≠ pkgName := hnone p (List.mem_cons_self _ _)
    simp only [pkgLoop, if_neg hp]
    exact ih pkgName acc (fun r hr => hnone r (List.mem_cons_of_mem _ hr))

theorem copy_source_code_ops (root_dir : RootDir) (target_dir : String) :
    ∀ (m : List (String × String)) (c : Container),
      (copy_source_code c root_dir m target_dir).ops =
        c.ops ++ m.map (fun kv =>
          ContainerOp.withDirectory ("/" ++ target_dir ++ "/" ++ kv.2) kv.2) := by
  intro m
  induction m with
  | nil => intro c; simp [copy_source_code]
  | cons kv rest ih =>
    intro c
    have step : copy_source_code c root_dir (kv :: rest) target_dir =
        copy_source_code (c.with_directory ("/" ++ target_dir ++ "/" ++ kv.2) kv.2)
          root_dir rest target_dir := rfl
    rw [step, ih]
    simp [Container.with_directory]

theorem cycleLock_successor : ∀ x, x ∈ ["a", "b"] →
    ∃ r, r ∈ cycleLock.packages ∧ r.name = x ∧
      ∃ d, (some d) ∈ r.dependencies ∧ d ∈ cycleLock.members ∧ d ∈ ["a", "b"] := by
  intro x hx
  rcases List.mem_cons.mp hx with rfl | hx2
  · exact ⟨cyclePkgA, by decide, rfl, "b", by decide, by decide, by decide⟩
  · rcases List.mem_cons.mp hx2 with rfl | hx3
    · exact ⟨cyclePkgB, by decide, rfl, "a", by decide, by decide, by decide⟩
    · exact absurd hx3 (List.not_mem_nil _)

/-- Claim C1: the claim states that the closure computation terminates on a
dependency cycle among workspace members; in the code the visited set
`local_projects` is grown but never consulted before recursing
(`find_deps_for_package` recurses into every member dependency
unconditionally), so on the two-package cycle `a ↔ b` the recursion
`a → b → a → …` never returns: for every fuel bound the computation
exhausts its fuel instead of producing `{a, b}`. -/
theorem c1_cycle_diverges :
    ∀ fuel : Nat, get_project_sources_map fuel cycleLock "a" = PyResult.fuelOut := by
  intro fuel
  unfold get_project_sources_map
  rw [find_deps_diverges cycleLock.members cycleLock.packages ["a", "b"]
    cycleLock_successor fuel "a" (by decide) ["a"]]

/-- Claim C2: for a workspace-member target `p` that has a package record,
every mapping `get_project_sources_map` successfully returns contains `p`
as a key, and every key of the mapping is a workspace member (no
third-party name ever appears as a key). -/
theorem c2_sources_map_keys (fuel : Nat) (lock : Lockfile) (p : String)
    (m : List (String × String))
    (hp : p ∈ lock.members)
    (hrec : ∃ r, r ∈ lock.packages ∧ r.name = p)
    (h : get_project_sources_map fuel lock p = PyResult.ok m) :
    (∃ v, (p, v) ∈ m) ∧ (∀ kv, kv ∈ m → kv.1 ∈ lock.members) := by
  unfold get_project_sources_map at h
  cases hfd : find_deps_for_package lock.members lock.packages fuel p [p] with
  | none => rw [hfd] at h; cases h
  | some lp =>
    rw [hfd] at h
    obtain ⟨hmono, hbound⟩ :=
      find_deps_mono_bound lock.members lock.packages fuel p [p] lp hfd
    have hpin : p ∈ lp := hmono p (List.mem_singleton.mpr rfl)
    refine ⟨buildSourcesMap_key_present lp lock.packages [] m h p hpin (Or.inl hrec), ?_⟩
    intro kv hkv
    rcases buildSourcesMap_keys lp lock.packages [] m h kv hkv with hlp | habs
    · rcases hbound kv.1 hlp with hacc | hmem
      · rw [List.mem_singleton.mp hacc]
        exact hp
      · exact hmem
    · exact absurd habs (List.not_mem_nil _)

/-- Witness for C2: the `exLock` lockfile at target `app` with fuel 5. -/
theorem c2_witness :
    ("app" ∈ exLock.members ∧ (∃ r, r ∈ exLock.packages ∧ r.name = "app") ∧
      get_project_sources_map 5 exLock "app" = PyResult.ok exMap) ∧
    ((∃ v, ("app", v) ∈ exMap) ∧ (∀ kv, kv ∈ exMap → kv.1 ∈ exLock.members)) :=
  ⟨⟨by decide, by decide, by decide⟩,
   c2_sources_map_keys 5 exLock "app" exMap (by decide) (by decide) (by decide)⟩

/-- Claim C3 counterexample: over `c3Lock` the member `b` is a dependency
of the included package `a` but has no package record, so the returned
mapping is `{a: projects/a}` — the fixed-point clause of the claim fails:
`a` is included, its dependency `b` names a workspace member, yet `b` is
not included. -/
theorem c3_counterexample :
    get_project_sources_map 5 c3Lock "a" = PyResult.ok [("a", "projects/a")] ∧
    (∃ r, r ∈ c3Lock.packages ∧ r.name = "a" ∧ (some "b") ∈ r.dependencies) ∧
    "b" ∈ c3Lock.members ∧
    (¬ ∃ v, ("b", v) ∈ [("a", "projects/a")]) := by
  refine ⟨by decide, ⟨⟨"a", [some "b"], some "projects/a"⟩, by decide, rfl, by decide⟩,
    by decide, ?_⟩
  rintro ⟨v, hv⟩
  have h1 : ("b", v) = ("a", "projects/a") := List.mem_singleton.mp hv
  have h2 : "b" = "a" := congrArg Prod.fst h1
  exact absurd h2 (by decide)

/-- Claim C3 (amended): every key of a successfully returned mapping is
reachable from the target via local-to-local dependency edges, and every
workspace-member dependency of an included package THAT HAS A PACKAGE
RECORD is itself included (the unamended fixed point fails when a member
referenced in a dependency list has no record, see the counterexample). -/
theorem c3_amended_closure (fuel : Nat) (lock : Lockfile) (p : String)
    (m : List (String × String))
    (h : get_project_sources_map fuel lock p = PyResult.ok m) :
    (∀ kv, kv ∈ m → LocalReach lock p kv.1) ∧
    (∀ kv, kv ∈ m → ∀ r, r ∈ lock.packages → r.name = kv.1 →
      ∀ d, (some d) ∈ r.dependencies → d ∈ lock.members →
        (∃ r2, r2 ∈ lock.packages ∧ r2.name = d) → ∃ v, (d, v) ∈ m) := by
  unfold get_project_sources_map at h
  cases hfd : find_deps_for_package lock.members lock.packages fuel p [p] with
  | none => rw [hfd] at h; cases h
  | some lp =>
    rw [hfd] at h
    have hkeys : ∀ kv, kv ∈ m → kv.1 ∈ lp := by
      intro kv hkv
      rcases buildSourcesMap_keys lp lock.packages [] m h kv hkv with h2 | h2
      · exact h2
      · exact absurd h2 (List.not_mem_nil _)
    constructor
    · intro kv hkv
      refine find_deps_reach lock p fuel p [p] lp hfd Relation.ReflTransGen.refl
        (fun x hx => ?_) kv.1 (hkeys kv hkv)
      rcases List.mem_singleton.mp hx with rfl
      exact Relation.ReflTransGen.refl
    · intro kv hkv r hr hn d hd hm hrec2
      obtain ⟨hexp1, hexp2⟩ := find_deps_expand lock fuel p [p] lp hfd
      have hexp : ExpandedIn lock kv.1 lp := by
        rcases hexp1 kv.1 (hkeys kv hkv) with h2 | h2
        · rw [List.mem_singleton.mp h2]
          exact hexp2
        · exact h2
      have hdlp : d ∈ lp := hexp r hr hn d hd hm
      exact buildSourcesMap_key_present lp lock.packages [] m h d hdlp (Or.inl hrec2)

/-- Witness for the amended C3: the `exLock` / `app` instance. -/
theorem c3_witness :
    get_project_sources_map 5 exLock "app" = PyResult.ok exMap ∧
    ((∀ kv, kv ∈ exMap → LocalReach exLock "app" kv.1) ∧
     (∀ kv, kv ∈ exMap → ∀ r, r ∈ exLock.packages → r.name = kv.1 →
       ∀ d, (some d) ∈ r.dependencies → d ∈ exLock.members →
         (∃ r2, r2 ∈ exLock.packages ∧ r2.name = d) → ∃ v, (d, v) ∈ exMap)) :=
  ⟨by decide, c3_amended_closure 5 exLock "app" exMap (by decide)⟩

/-- Claim C4 counterexample: the target `zzz` is not a workspace member of
`c4Lock`, yet `get_project_sources_map` SUCCEEDS with the empty mapping —
it does not fail at all, let alone with an UnknownPackage error (no such
error exists anywhere in the function's behavior). -/
theorem c4_counterexample :
    "zzz" ∉ c4Lock.members ∧
    get_project_sources_map 1 c4Lock "zzz" = PyResult.ok [] :=
  ⟨by decide, by decide⟩

/-- Claim C4 (amended): `get_project_sources_map` performs no
workspace-membership validation of the target; for a target that is not a
workspace member and has no package record of its name, it succeeds and
returns the empty mapping. -/
theorem c4_no_membership_check (fuel : Nat) (lock : Lockfile) (t : String)
    (hfuel : 0 < fuel) (hmem : t ∉ lock.members)
    (hnorec : ∀ r, r ∈ lock.packages → r.name ≠ t) :
    get_project_sources_map fuel lock t = PyResult.ok [] := by
  unfold get_project_sources_map
  cases fuel with
  | zero => exact absurd hfuel (by decide)
  | succ n =>
    have hfd : find_deps_for_package lock.members lock.packages (Nat.succ n) t [t]
        = some [t] :=
      pkgLoop_no_match lock.members _ lock.packages t [t] hnorec
    rw [hfd]
    exact buildSourcesMap_skip [t] lock.packages []
      (fun r hr h2 => hnorec r hr (List.mem_singleton.mp h2))

/-- Witness for the amended C4: target `zzz` against `c4Lock`. -/
theorem c4_witness :
    (0 < 1 ∧ "zzz" ∉ c4Lock.members ∧ (∀ r, r ∈ c4Lock.packages → r.name ≠ "zzz")) ∧
    get_project_sources_map 1 c4Lock "zzz" = PyResult.ok [] :=
  ⟨⟨by decide, by decide, by decide⟩,
   c4_no_membership_check 1 c4Lock "zzz" (by decide) (by decide) (by decide)⟩

/-- Claim C5: `copy_source_code` issues exactly one `with_directory`
operation per entry of the closure mapping (in mapping order), and — since
every key of a successfully computed mapping is a workspace member — never
an operation derived from a third-party package. -/
theorem c5_copy_only_closure (fuel : Nat) (lock : Lockfile) (p : String)
    (m : List (String × String)) (c : Container) (root_dir : RootDir) (target_dir : String)
    (hp : p ∈ lock.members)
    (h : get_project_sources_map fuel lock p = PyResult.ok m) :
    (copy_source_code c root_dir m target_dir).ops =
      c.ops ++ m.map (fun kv =>
        ContainerOp.withDirectory ("/" ++ target_dir ++ "/" ++ kv.2) kv.2) ∧
    (∀ kv, kv ∈ m → kv.1 ∈ lock.members) := by
  refine ⟨copy_source_code_ops root_dir target_dir m c, ?_⟩
  unfold get_project_sources_map at h
  cases hfd : find_deps_for_package lock.members lock.packages fuel p [p] with
  | none => rw [hfd] at h; cases h
  | some lp =>
    rw [hfd] at h
    obtain ⟨hmono, hbound⟩ :=
      find_deps_mono_bound lock.members lock.packages fuel p [p] lp hfd
    intro kv hkv
    rcases buildSourcesMap_keys lp lock.packages [] m h kv hkv with hlp | habs
    · rcases hbound kv.1 hlp with hacc | hmem
      · rw [List.mem_singleton.mp hacc]
        exact hp
      · exact hmem
    · exact absurd habs (List.not_mem_nil _)

/-- Witness for C5: over `exLock`, `app` transitively depends on the
third-party `requests` through `lib1`; the copy step issues exactly the
two directories of the closure and none for `requests`. -/
theorem c5_witness :
    ("app" ∈ exLock.members ∧ get_project_sources_map 5 exLock "app" = PyResult.ok exMap ∧
      "requests" ∉ exLock.members ∧ (∀ kv, kv ∈ exMap → kv.1 ≠ "requests")) ∧
    ((copy_source_code demoContainer exRoot exMap "src").ops =
      demoContainer.ops ++ exMap.map (fun kv =>
        ContainerOp.withDirectory ("/" ++ "src" ++ "/" ++ kv.2) kv.2) ∧
     (∀ kv, kv ∈ exMap → kv.1 ∈ exLock.members)) :=
  ⟨⟨by decide, by decide, by decide, by decide⟩,
   c5_copy_only_closure 5 exLock "app" exMap demoContainer exRoot "src"
     (by decide) (by decide)⟩

/-- Claim C6 counterexample: `build_container_destination` performs no
lowercasing, so the claimed value `ghcr.io/ns/repo:v1` is wrong — the
function returns the case-preserved `GHCR.io/ns/Repo:V1`. -/
theorem c6_counterexample :
    build_container_destination "GHCR.io" (some "ns") "Repo" "V1" = "GHCR.io/ns/Repo:V1" ∧
    build_container_destination "GHCR.io" (some "ns") "Repo" "V1" ≠ "ghcr.io/ns/repo:v1" :=
  ⟨by decide, by decide⟩

/-- Claim C6 (amended): the builder joins the segments among
registry / namespace / repository that are present (not None) with `/` and
appends `:tag`, preserving case; an absent namespace is omitted with no
empty path segment. -/
theorem c6_join_no_lowercase :
    (∀ registry nspace repository tag : String,
      build_container_destination registry (some nspace) repository tag =
        registry ++ "/" ++ nspace ++ "/" ++ repository ++ ":" ++ tag) ∧
    (∀ registry repository tag : String,
      build_container_destination registry none repository tag =
        registry ++ "/" ++ repository ++ ":" ++ tag) ∧
    build_container_destination "GHCR.io" (some "ns") "Repo" "V1" = "GHCR.io/ns/Repo:V1" ∧
    build_container_destination "ttl.sh" none "anon-image" "20m" = "ttl.sh/anon-image:20m" := by
  refine ⟨?_, ?_, by decide, by decide⟩
  · intro r n repo t
    show joinSlash [r, n, repo] ++ ":" ++ t = _
    simp [joinSlash, String.append_assoc]
  · intro r repo t
    show joinSlash [r, repo] ++ ":" ++ t = _
    simp [joinSlash, String.append_assoc]

/-- Claim C7 counterexample: with the credentialed registry but neither a
username nor a password the function does NOT return the container
unchanged — it attaches a registry-auth operation anyway, because only the
registry string is ever checked. -/
theorem c7_counterexample :
    attach_registry_auth demoContainer "ghcr.io" none none ≠ demoContainer := by decide

/-- Claim C7 (amended): authentication is attached exactly when the
registry equals "ghcr.io", irrespective of whether a username or password
is present; any other registry returns the container unchanged (the
embedded function is total — nothing is raised on that path). -/
theorem c7_registry_only_check (c : Container) (registry : String)
    (username : Option String) (password : Option Secret)
    (hreg : registry ≠ "ghcr.io") :
    attach_registry_auth c registry username password = c ∧
    (attach_registry_auth c "ghcr.io" username password).ops =
      c.ops ++ [ContainerOp.withRegistryAuth "ghcr.io" username password] := by
  constructor
  · simp [attach_registry_auth, hreg]
  · simp [attach_registry_auth, Container.with_registry_auth]

/-- Witness for the amended C7: the anonymous registry `ttl.sh` with full
credentials supplied is a no-op, while `ghcr.io` attaches auth. -/
theorem c7_witness :
    (("ttl.sh" : String) ≠ "ghcr.io") ∧
    (attach_registry_auth demoContainer "ttl.sh" (some "user") (some ⟨"tok"⟩) =
      demoContainer ∧
     (attach_registry_auth demoContainer "ghcr.io" (some "user") (some ⟨"tok"⟩)).ops =
      demoContainer.ops ++
        [ContainerOp.withRegistryAuth "ghcr.io" (some "user") (some ⟨"tok"⟩)]) :=
  ⟨by decide,
   c7_registry_only_check demoContainer "ttl.sh" (some "user") (some ⟨"tok"⟩) (by decide)⟩

/-- Claim C8 counterexample: under an engine environment in which the
pytest gate exits 1, `verify` aborts after the first gate — pyright and
ruff are never executed and no three-block text is returned, contradicting
the claim that all three gates run unconditionally. -/
theorem c8_counterexample :
    (verify envFail demoContainer).2 = [["pytest"]] ∧
    (verify envFail demoContainer).2 ≠ [["pytest"], ["pyright"], ["ruff", "check"]] ∧
    (verify envFail demoContainer).1 = .error ([ContainerOp.withExec ["pytest"]], 1) :=
  ⟨rfl, by decide, rfl⟩

/-- Claim C8 (amended): `verify` runs the three gate commands strictly in
sequence with no exception handling; when every gate exits zero it
executes all three and returns the single three-block labeled text, and a
non-zero exit of an earlier gate aborts the operation (per the engine
contract that a failed command exit is fatal), so later gates do not
run. -/
theorem c8_all_gates_when_green (env : ExecEnv) (c : Container)
    (h1 : env.exitCode (c.with_exec ["pytest"]).ops = 0)
    (h2 : env.exitCode (c.with_exec ["pyright"]).ops = 0)
    (h3 : env.exitCode (c.with_exec ["ruff", "check"]).ops = 0) :
    (verify env c).2 = [["pytest"], ["pyright"], ["ruff", "check"]] ∧
    (verify env c).1 = .ok ("\nPytest:\n" ++ env.stdoutOf (c.with_exec ["pytest"]).ops ++
      "\n\nPyright:\n" ++ env.stdoutOf (c.with_exec ["pyright"]).ops ++
      "\n\nRuff:\n" ++ env.stdoutOf (c.with_exec ["ruff", "check"]).ops ++ "\n") := by
  unfold verify containerStdout
  rw [if_pos h1, if_pos h2, if_pos h3]
  exact ⟨rfl, rfl⟩

/-- Witness for the amended C8: the all-green environment `envOk`. -/
theorem c8_witness :
    (envOk.exitCode (demoContainer.with_exec ["pytest"]).ops = 0 ∧
     envOk.exitCode (demoContainer.with_exec ["pyright"]).ops = 0 ∧
     envOk.exitCode (demoContainer.with_exec ["ruff", "check"]).ops = 0) ∧
    ((verify envOk demoContainer).2 = [["pytest"], ["pyright"], ["ruff", "check"]] ∧
     (verify envOk demoContainer).1 =
       .ok ("\nPytest:\n" ++ envOk.stdoutOf (demoContainer.with_exec ["pytest"]).ops ++
         "\n\nPyright:\n" ++ envOk.stdoutOf (demoContainer.with_exec ["pyright"]).ops ++
         "\n\nRuff:\n" ++
         envOk.stdoutOf (demoContainer.with_exec ["ruff", "check"]).ops ++ "\n")) :=
  ⟨⟨rfl, rfl, rfl⟩, c8_all_gates_when_green envOk demoContainer rfl rfl rfl⟩

/-- Claim C9 counterexample: the production-publish variant and the
development variant filter their directories through the very same
module-level IGNORE set (both annotations alias it), and no pattern of
that set so much as mentions the character sequence "tests", hence no
variant omits paths matching `**/tests`. -/
theorem c9_counterexample :
    RootDirPatterns = SourceDirPatterns ∧
    "**/tests" ∉ IGNORE ∧
    IGNORE.all (fun pat => !(mentionsTests pat)) = true :=
  ⟨rfl, by decide, by decide⟩

/-- Claim C9 (amended): there is a single exclude-pattern set IGNORE,
shared verbatim by the RootDir and SourceDir annotations and hence by the
development and both publish pipelines; it contains no test-directory
pattern (while the check itself does recognize `**/tests`), so test
directories are included in every variant. -/
theorem c9_single_pattern_set :
    RootDirPatterns = IGNORE ∧ SourceDirPatterns = IGNORE ∧
    "**/tests" ∉ IGNORE ∧
    (∀ pat, pat ∈ IGNORE → mentionsTests pat = false) ∧
    mentionsTests "**/tests" = true :=
  ⟨rfl, rfl, by decide, by decide, by decide⟩

/-- Claim C10: every invocation of `fastapi_publish` raises a `TypeError`
before any image is published: its `fastapi_build` call supplies neither
of the required `port` and `host` parameters; moreover the dev branch's
`build_container_destination` call omits the required `namespace`
parameter and the non-dev branch's `attach_registry_auth` call omits the
required `container` parameter, so each would raise on its own. -/
theorem c10_publish_always_raises :
    (∀ fuel root_dir project dev tag registry image_name username password,
      fastapi_publish fuel root_dir project dev tag registry image_name username password =
        PyResult.typeError) ∧
    (∀ fuel root_dir project,
      fastapi_build_call fuel (some root_dir) (some project) none none =
        PyResult.typeError) ∧
    build_container_destination_call (some (some "ttl.sh")) none (some "python-monorepo")
      (some "20m") = PyResult.typeError ∧
    (∀ registry username password,
      attach_registry_auth_call none (some registry) (some username) (some password) =
        PyResult.typeError) :=
  ⟨fun _ _ _ _ _ _ _ _ _ => rfl, fun _ _ _ => rfl, rfl, fun _ _ _ => rfl⟩
